import Mathlib

/-!
Shallow embedding of the resource/cache-management fragments of the
buku-ajar-typescript corpus:

* `JsMap` — model of a JavaScript `Map` as an association list kept in
  insertion (iteration) order, head = first key in iteration order.
  A `Map` never holds two entries with the same key, so `set`/`delete`
  act on the first (only) occurrence of the key.
* `LRUCache` — `class LRUCache<K, V>` from 07-decorators.md
  (lines 527–553): `get` re-inserts a found key at the back of the map,
  `set` deletes the first key of the iteration order when
  `size >= maxSize` and then performs a plain `Map.set`.
* `Cache` — the TTL cache `class Cache<K, V>` from 07-decorators.md
  (lines 886–908): entries carry `expiry = Date.now() + ttl`; `get`
  deletes and misses when `Date.now() > expiry`.
* `ResourcePool` — `class ResourcePool<T>` from 07-decorators.md
  (lines 489–524).  Items are identified by the order in which the
  factory constructed them (`nextId` plays the factory's role); the
  caller-supplied `reset` hook mutates an item's payload only, never its
  identity, so it is invisible at this level of the model.
* `retryOperation` — from 08-error-handling.md (lines 354–366),
  instrumented with the attempt count; the operation is modelled as a
  function from the attempt index to that attempt's outcome.
* `NetworkOptimizer` — the retry loop of `NetworkOptimizer.fetch` from
  07-decorators.md (lines 792–826), instrumented with the list of
  backoff delays the loop sleeps (`Math.pow(2, i) * 1000`).
* `AsyncOperationManager` — from 07-decorators.md (lines 556–592),
  modelled as a transition system over the external events `add` and
  `complete` (completion of the operation currently being awaited).
-/

namespace JsMap

/-- `Map.prototype.get`: value of the first (only) entry with the key. -/
def get [DecidableEq K] (k : K) : List (K × V) → Option V
  | [] => none
  | (a, v) :: tl => if a = k then some v else get k tl

/-- `Map.prototype.set`: replace the entry with the key in place (keeping
its position in iteration order) if present, otherwise append at the end. -/
def set [DecidableEq K] (k : K) (v : V) : List (K × V) → List (K × V)
  | [] => [(k, v)]
  | (a, w) :: tl => if a = k then (k, v) :: tl else (a, w) :: set k v tl

/-- `Map.prototype.delete`: remove the entry with the key, if any. -/
def delete [DecidableEq K] (k : K) : List (K × V) → List (K × V)
  | [] => []
  | (a, w) :: tl => if a = k then tl else (a, w) :: delete k tl

end JsMap

namespace LRUCache

/-- `LRUCache.get`: on a hit the entry is deleted and re-`set`, moving it
to the back of the iteration order (most recently used); on a miss the
map is untouched.  Returns the JS return value together with the updated
map. -/
def get [DecidableEq K] (k : K) (c : List (K × V)) :
    Option V × List (K × V) :=
  match JsMap.get k c with
  | some v => (some v, JsMap.set k v (JsMap.delete k c))
  | none => (none, c)

/-- `LRUCache.set`: when `size >= maxSize` the first key of the iteration
order (`cache.keys().next().value`) is deleted; on an empty map that key
is `undefined` and the delete is a no-op.  Then a plain `Map.set`. -/
def set [DecidableEq K] (maxSize : Nat) (k : K) (v : V)
    (c : List (K × V)) : List (K × V) :=
  let c' :=
    if maxSize ≤ c.length then
      match c.head? with
      | some p => JsMap.delete p.1 c
      | none => c
    else c
  JsMap.set k v c'

/-- An external call on the cache: `get key` or `set key value`. -/
inductive Op (K V : Type) where
  | get (k : K)
  | set (k : K) (v : V)

/-- Effect of one call on the backing map. -/
def applyOp [DecidableEq K] (maxSize : Nat) (c : List (K × V)) :
    Op K V → List (K × V)
  | .get k => (get k c).2
  | .set k v => set maxSize k v c

/-- The backing map after a sequence of calls on a fresh cache. -/
def runOps [DecidableEq K] (maxSize : Nat) (ops : List (Op K V)) :
    List (K × V) :=
  ops.foldl (applyOp maxSize) []

end LRUCache

namespace Cache

/-- `Cache.set`: store the value with `expiry = now + ttl` via `Map.set`.
`now` stands for `Date.now()` at the moment of the call. -/
def set [DecidableEq K] (k : K) (v : V) (ttl now : Nat)
    (d : List (K × V × Nat)) : List (K × V × Nat) :=
  JsMap.set k (v, now + ttl) d

/-- `Cache.get`: miss on an absent key; if `now > expiry` the entry is
deleted and the call misses; otherwise the value is returned.  Returns
the JS return value together with the updated map. -/
def get [DecidableEq K] (k : K) (now : Nat) (d : List (K × V × Nat)) :
    Option V × List (K × V × Nat) :=
  match JsMap.get k d with
  | none => (none, d)
  | some (v, expiry) =>
    if now > expiry then (none, JsMap.delete k d) else (some v, d)

end Cache

/-- Pool state of `class ResourcePool<T>`.  Items carry the identity the
factory gave them: the n-th object the factory ever constructed is `n`,
and `nextId` counts the constructions so far.  `pool` is the JS array of
idle items (push at the end, pop from the end); `inUse` is the JS `Set`
in insertion order. -/
structure ResourcePool where
  pool : List Nat
  inUse : List Nat
  nextId : Nat
  deriving DecidableEq, Repr

namespace ResourcePool

/-- `Set.prototype.add`: append if not already a member. -/
def setAdd (x : Nat) (s : List Nat) : List Nat :=
  if x ∈ s then s else s ++ [x]

/-- The constructor (it pushes `initialSize` fresh factory items onto
`pool` before any acquire). -/
def make (initialSize : Nat) : ResourcePool :=
  { pool := List.range initialSize, inUse := [], nextId := initialSize }

/-- `ResourcePool.acquire`: pop an idle item if the array is non-empty,
otherwise construct a fresh one via the factory; either way add it to
`inUse` and return it. -/
def acquire (st : ResourcePool) : Nat × ResourcePool :=
  match st.pool.getLast? with
  | some item =>
    (item, { st with pool := st.pool.dropLast, inUse := setAdd item st.inUse })
  | none =>
    (st.nextId,
      { st with inUse := setAdd st.nextId st.inUse, nextId := st.nextId + 1 })

/-- `ResourcePool.release`: only when the item is in `inUse`, remove it
from `inUse`, run the reset hook (which mutates the item's payload, not
its identity) and push it back onto `pool`; otherwise do nothing. -/
def release (item : Nat) (st : ResourcePool) : ResourcePool :=
  if item ∈ st.inUse then
    { st with inUse := st.inUse.erase item, pool := st.pool ++ [item] }
  else st

/-- `n` back-to-back `acquire` calls with no intervening release. -/
def acquireN : Nat → ResourcePool → ResourcePool
  | 0, st => st
  | n + 1, st => acquireN n (acquire st).2

end ResourcePool

/-- `retryOperation(operation, retries)` from 08-error-handling.md,
instrumented with the number of attempts it performs.  `op i` is the
outcome of the i-th invocation of `operation` (0-based, counted across
the whole run); `k` is the index of the attempt about to be made.  The
JS: try the operation; on failure recurse with `retries - 1` while
`retries > 0`, otherwise rethrow the error. -/
def retryOperation (op : Nat → Except E A) :
    Nat → Nat → Except E A × Nat
  | retries, k =>
    match op k with
    | .ok a => (.ok a, 1)
    | .error e =>
      match retries with
      | r + 1 =>
        let p := retryOperation op r (k + 1)
        (p.1, p.2 + 1)
      | 0 => (.error e, 1)

namespace NetworkOptimizer

/-- The retry loop of `NetworkOptimizer.fetch`: `for (let i = 0; i <
retries; i++)` tries the attempt; on failure it records the error as
`lastError` and sleeps `Math.pow(2, i) * 1000` ms before the next
iteration (the sleep happens inside the `catch`, so also after the final
failed attempt).  After the loop, `throw lastError` — which is still
`null` when `retries = 0`.  The model returns the outcome (`Sum.inl`
for a successful response, `Sum.inr` for the thrown `lastError`)
together with the list of backoff delays slept, in order. -/
def fetchGo (op : Nat → Except E A) :
    Nat → Nat → Option E → List Nat → (A ⊕ Option E) × List Nat
  | 0, _, lastError, delays => (Sum.inr lastError, delays)
  | fuel + 1, i, _, delays =>
    match op i with
    | .ok a => (Sum.inl a, delays)
    | .error e => fetchGo op fuel (i + 1) (some e) (delays ++ [2 ^ i * 1000])

/-- The whole retry loop of `fetch`, from attempt 0. -/
def fetchLoop (op : Nat → Except E A) (retries : Nat) :
    (A ⊕ Option E) × List Nat :=
  fetchGo op retries 0 none []

end NetworkOptimizer

/-- State of `class AsyncOperationManager`.  Operations are identified
by numbers.  `queue`, `isProcessing` and `activeCount` are the fields of
the class; `running` is the operation currently being awaited inside the
`while` loop of `processQueue` (`none` when no `await operation()` is
pending); `started` and `enqueued` are ghost logs of the order in which
operations were started and added. -/
structure AsyncOperationManager where
  queue : List Nat
  isProcessing : Bool
  activeCount : Nat
  running : Option Nat
  started : List Nat
  enqueued : List Nat
  deriving DecidableEq, Repr

namespace AsyncOperationManager

def init : AsyncOperationManager :=
  { queue := [], isProcessing := false, activeCount := 0, running := none,
    started := [], enqueued := [] }

/-- One arrival at the head of the `while` loop of `processQueue` (with
`isProcessing` already true).  If the queue is non-empty and
`activeCount < concurrentLimit`, the head is shifted off, `activeCount`
is incremented and the operation is started (`await operation()` — the
loop then suspends until the `complete` event).  Otherwise the loop
exits and `isProcessing` is reset.  (With `concurrentLimit = 0` and a
non-empty queue the JS would re-invoke `processQueue` forever without
starting anything; the model stops in the same un-started state.) -/
def loopHead (limit : Nat) (st : AsyncOperationManager) :
    AsyncOperationManager :=
  match st.queue with
  | [] => { st with isProcessing := false }
  | op :: rest =>
    if st.activeCount < limit then
      { st with
        queue := rest, activeCount := st.activeCount + 1,
        running := some op, started := st.started ++ [op],
        isProcessing := true }
    else { st with isProcessing := false }

/-- External events: `add op` (a caller invokes `add(operation)`) and
`complete` (the operation currently awaited resolves, running the
`finally` that decrements `activeCount` and resuming the loop). -/
inductive Event where
  | add (op : Nat)
  | complete
  deriving DecidableEq, Repr

/-- Effect of one event.  `add` pushes the operation and calls
`processQueue`, whose synchronous prefix returns at once when
`isProcessing` is already true and otherwise runs the loop up to its
first suspension.  `complete` runs the `finally` of the awaited
operation and continues the loop at its head. -/
def step (limit : Nat) (st : AsyncOperationManager) :
    Event → AsyncOperationManager
  | .add op =>
    let st' := { st with
                 queue := st.queue ++ [op],
                 enqueued := st.enqueued ++ [op] }
    if st'.isProcessing then st'
    else loopHead limit { st' with isProcessing := true }
  | .complete =>
    match st.running with
    | some _ =>
      loopHead limit
        { st with activeCount := st.activeCount - 1, running := none }
    | none => st

/-- The manager after a sequence of external events. -/
def run (limit : Nat) (es : List Event) : AsyncOperationManager :=
  es.foldl (step limit) init

end AsyncOperationManager

/-- Well-formedness of a pool state, maintained by every reachable
state: items are identities the factory has handed out, no item is both
idle and in use, and neither list repeats an item. -/
def ResourcePool.WF (st : ResourcePool) : Prop :=
  (∀ x ∈ st.pool, x < st.nextId) ∧ (∀ x ∈ st.inUse, x < st.nextId) ∧
  (∀ x ∈ st.pool, x ∉ st.inUse) ∧ st.pool.Nodup ∧ st.inUse.Nodup

/-- State invariant of the manager model: `activeCount` counts exactly
the operation being awaited (if any), the ghost logs record that every
enqueued operation is either already started or still queued in order,
and `isProcessing` is set exactly while the loop is awaiting. -/
def AsyncOperationManager.Inv (st : AsyncOperationManager) : Prop :=
  st.activeCount = (if st.running.isSome then 1 else 0) ∧
  st.started ++ st.queue = st.enqueued ∧
  st.isProcessing = st.running.isSome

/-! ## Basic lemmas about the `JsMap` model -/

namespace JsMap

variable {K V : Type} [DecidableEq K]

theorem length_set_le (k : K) (v : V) (d : List (K × V)) :
    (set k v d).length ≤ d.length + 1 := by
  induction d with
  | nil => simp [set]
  | cons hd tl ih =>
    obtain ⟨a, w⟩ := hd
    by_cases hak : a = k <;> simp [set, hak]
    omega

theorem length_delete_of_get (k : K) (v : V) (d : List (K × V))
    (h : get k d = some v) : (delete k d).length + 1 = d.length := by
  induction d with
  | nil => simp [get] at h
  | cons hd tl ih =>
    obtain ⟨a, w⟩ := hd
    by_cases hak : a = k
    · simp [delete, hak]
    · simp [get, hak] at h
      simp [delete, hak, ih h]

theorem get_set_self (k : K) (v : V) (d : List (K × V)) :
    get k (set k v d) = some v := by
  induction d with
  | nil => simp [get, set]
  | cons hd tl ih =>
    obtain ⟨a, w⟩ := hd
    by_cases hak : a = k <;> simp [get, set, hak, ih]

theorem get_eq_none_iff (k : K) (d : List (K × V)) :
    get k d = none ↔ k ∉ d.map Prod.fst := by
  induction d with
  | nil => simp [get]
  | cons hd tl ih =>
    obtain ⟨a, w⟩ := hd
    by_cases hak : a = k
    · subst hak
      simp [get]
    · have hka : ¬ k = a := fun h => hak h.symm
      simp [get, hak, hka, ih]

theorem keys_set (k : K) (v : V) (d : List (K × V)) :
    (set k v d).map Prod.fst =
      if k ∈ d.map Prod.fst then d.map Prod.fst
      else d.map Prod.fst ++ [k] := by
  induction d with
  | nil => simp [set]
  | cons hd tl ih =>
    obtain ⟨a, w⟩ := hd
    by_cases hak : a = k
    · simp [set, hak]
    · have hka : ¬ k = a := fun h => hak h.symm
      by_cases hk : k ∈ tl.map Prod.fst <;>
        simp [set, hak, ih, hka, hk]

theorem get_delete_self (k : K) (d : List (K × V))
    (hd : (d.map Prod.fst).Nodup) : get k (delete k d) = none := by
  induction d with
  | nil => simp [get, delete]
  | cons hd0 tl ih =>
    obtain ⟨a, w⟩ := hd0
    simp only [List.map_cons, List.nodup_cons] at hd
    by_cases hak : a = k
    · subst hak
      simp only [delete, if_pos rfl]
      exact (get_eq_none_iff a tl).2 hd.1
    · simp [delete, get, hak, ih hd.2]

end JsMap

/-! ## C1: the LRU capacity invariant -/

namespace LRUCache

variable {K V : Type} [DecidableEq K]

theorem length_get_le (k : K) (c : List (K × V)) :
    (get k c).2.length ≤ c.length := by
  unfold get
  cases hg : JsMap.get k c with
  | none => simp
  | some v =>
    simp only
    calc (JsMap.set k v (JsMap.delete k c)).length
        ≤ (JsMap.delete k c).length + 1 := JsMap.length_set_le ..
      _ = c.length := JsMap.length_delete_of_get k v c hg

theorem length_set_le' (m : Nat) (hm : 1 ≤ m) (k : K) (v : V)
    (c : List (K × V)) (hc : c.length ≤ m) :
    (set m k v c).length ≤ m := by
  unfold set
  by_cases hfull : m ≤ c.length
  · cases c with
    | nil => simpa [JsMap.set, hfull] using hm
    | cons p tl =>
      have hdel : JsMap.delete p.1 (p :: tl) = tl := by
        obtain ⟨a, w⟩ := p
        simp [JsMap.delete]
      simp only [hfull, if_pos, List.head?_cons, hdel]
      calc (JsMap.set k v tl).length ≤ tl.length + 1 :=
            JsMap.length_set_le ..
        _ = (p :: tl).length := by simp
        _ ≤ m := hc
  · simp only [hfull, if_neg, not_false_iff]
    calc (JsMap.set k v c).length ≤ c.length + 1 := JsMap.length_set_le ..
      _ ≤ m := by omega

theorem length_applyOp_le (m : Nat) (hm : 1 ≤ m) (c : List (K × V))
    (hc : c.length ≤ m) (op : Op K V) :
    (applyOp m c op).length ≤ m := by
  cases op with
  | get k => exact le_trans (length_get_le k c) hc
  | set k v => exact length_set_le' m hm k v c hc

theorem length_foldl_le (m : Nat) (hm : 1 ≤ m) (ops : List (Op K V)) :
    ∀ c : List (K × V), c.length ≤ m →
      (ops.foldl (applyOp m) c).length ≤ m := by
  induction ops with
  | nil => intro c hc; simpa using hc
  | cons op tl ih =>
    intro c hc
    exact ih _ (length_applyOp_le m hm c hc op)

end LRUCache

/-- Claim C1: for every capacity `maxSize > 0` and every sequence of
`LRUCache.set` calls interleaved with `get` calls on a fresh cache, the
number of entries is at most `maxSize` at every point (after every
prefix of the sequence): `set` deletes the first key of the map's
iteration order before inserting whenever `size >= maxSize`. -/
theorem lru_capacity_invariant {K V : Type} [DecidableEq K]
    (maxSize : Nat) (h : 1 ≤ maxSize) (ops : List (LRUCache.Op K V))
    (n : Nat) :
    (LRUCache.runOps maxSize (ops.take n)).length ≤ maxSize :=
  LRUCache.length_foldl_le maxSize h (ops.take n) [] (by simp)

/-- Witness for C1 at `maxSize = 2` and the three-`set` sequence of the
spec's own example. -/
theorem lru_capacity_invariant_witness :
    (LRUCache.runOps 2
      (List.take 3 [LRUCache.Op.set 0 10, LRUCache.Op.set 1 11,
        LRUCache.Op.set (2 : Nat) (12 : Nat)])).length ≤ 2 :=
  lru_capacity_invariant 2 (by decide) _ 3

/-! ## C5 and C6: recency behaviour of `get` and `set` -/

namespace JsMap

theorem set_eq_append_of_not_mem {K V : Type} [DecidableEq K] (k : K)
    (v : V) (d : List (K × V)) (h : k ∉ d.map Prod.fst) :
    set k v d = d ++ [(k, v)] := by
  induction d with
  | nil => simp [set]
  | cons hd tl ih =>
    obtain ⟨a, w⟩ := hd
    simp only [List.map_cons, List.mem_cons] at h
    push_neg at h
    have hak : ¬ a = k := fun hh => h.1 hh.symm
    simp [set, hak, ih h.2]

theorem not_mem_keys_delete_self {K V : Type} [DecidableEq K] (k : K)
    (d : List (K × V)) (hd : (d.map Prod.fst).Nodup) :
    k ∉ (delete k d).map Prod.fst :=
  (get_eq_none_iff k (delete k d)).1 (get_delete_self k d hd)

end JsMap

/-- Claim C5: a successful `get` makes the accessed entry the
most-recently-used one (the last entry of the iteration order, i.e. the
last to be reached by front-of-map eviction); consequently, with
capacity 2 and sets of keys 0,1,2 in order with no intervening gets, a
subsequent `get 0` misses while `get 1` and `get 2` succeed, and
re-accessing key 0 by `get` between the sets instead protects it: the
later `set` of key 2 evicts key 1. -/
theorem lru_recency_protection (K V : Type) [DecidableEq K] :
    (∀ (c : List (K × V)) (k : K) (v : V), (c.map Prod.fst).Nodup →
      JsMap.get k c = some v →
      ((LRUCache.get k c).2).getLast? = some (k, v)) ∧
    (LRUCache.get 0
      (LRUCache.runOps 2 [LRUCache.Op.set 0 10, LRUCache.Op.set 1 11,
        LRUCache.Op.set (2 : Nat) (12 : Nat)])).1 = none ∧
    (LRUCache.get 1
      (LRUCache.get 0
        (LRUCache.runOps 2 [LRUCache.Op.set 0 10, LRUCache.Op.set 1 11,
          LRUCache.Op.set (2 : Nat) (12 : Nat)])).2).1 = some 11 ∧
    (LRUCache.get 2
      (LRUCache.get 1
        (LRUCache.get 0
          (LRUCache.runOps 2 [LRUCache.Op.set 0 10, LRUCache.Op.set 1 11,
            LRUCache.Op.set (2 : Nat) (12 : Nat)])).2).2).1 = some 12 ∧
    (LRUCache.get 0
      (LRUCache.runOps 2 [LRUCache.Op.set 0 10, LRUCache.Op.set 1 11,
        LRUCache.Op.get 0, LRUCache.Op.set (2 : Nat) (12 : Nat)])).1
      = some 10 ∧
    (LRUCache.get 1
      (LRUCache.runOps 2 [LRUCache.Op.set 0 10, LRUCache.Op.set 1 11,
        LRUCache.Op.get 0, LRUCache.Op.set (2 : Nat) (12 : Nat)])).1
      = none := by
  refine ⟨?_, by decide, by decide, by decide, by decide, by decide⟩
  intro c k v hnd hg
  unfold LRUCache.get
  rw [hg]
  simp only
  rw [JsMap.set_eq_append_of_not_mem k v (JsMap.delete k c)
    (JsMap.not_mem_keys_delete_self k c hnd)]
  exact List.getLast?_concat _

/-- Witness for C5: the universally quantified part applied to the
one-entry cache `[(0, 10)]`. -/
theorem lru_recency_protection_witness :
    ((LRUCache.get 0 [((0 : Nat), (10 : Nat))]).2).getLast? = some (0, 10) :=
  (lru_recency_protection Nat Nat).1 [(0, 10)] 0 10 (by decide) (by decide)

/-- Counterexample to claim C6: with capacity 3, after `set 0 1`,
`set 1 2`, the replacing `set 0 7` leaves key 0 at the *front* of the
iteration order (the last entry — the most-recently-used position — is
still `(1, 2)`), and two further inserts make the eviction remove key 0
while key 1 survives, although key 0 was the most recently *set* of the
two.  A replacing `set` below capacity is a plain in-place `Map.set`
and does not reset recency. -/
theorem lru_set_replace_counterexample :
    (LRUCache.runOps 3 [LRUCache.Op.set 0 1, LRUCache.Op.set 1 2,
      LRUCache.Op.set (0 : Nat) (7 : Nat)]).getLast? = some (1, 2) ∧
    (LRUCache.runOps 3 [LRUCache.Op.set 0 1, LRUCache.Op.set 1 2,
      LRUCache.Op.set (0 : Nat) (7 : Nat)]).head? = some (0, 7) ∧
    (LRUCache.get 0
      (LRUCache.runOps 3 [LRUCache.Op.set 0 1, LRUCache.Op.set 1 2,
        LRUCache.Op.set 0 7, LRUCache.Op.set 2 9,
        LRUCache.Op.set (3 : Nat) (5 : Nat)])).1 = none ∧
    (LRUCache.get 1
      (LRUCache.runOps 3 [LRUCache.Op.set 0 1, LRUCache.Op.set 1 2,
        LRUCache.Op.set 0 7, LRUCache.Op.set 2 9,
        LRUCache.Op.set (3 : Nat) (5 : Nat)])).1 = some 2 := by
  refine ⟨by decide, by decide, by decide, by decide⟩

/-- Claim C6 as amended: when the cache is below capacity, `set` on a
key already present replaces the value *in place*: the sequence of keys
in iteration (recency) order is unchanged, so the replaced key keeps
its old recency rank instead of becoming most-recently-used. -/
theorem lru_set_replace_in_place {K V : Type} [DecidableEq K]
    (maxSize : Nat) (k : K) (v : V) (c : List (K × V))
    (hlen : c.length < maxSize) (hmem : k ∈ c.map Prod.fst) :
    (LRUCache.set maxSize k v c).map Prod.fst = c.map Prod.fst ∧
    JsMap.get k (LRUCache.set maxSize k v c) = some v := by
  have hno : ¬ maxSize ≤ c.length := by omega
  unfold LRUCache.set
  simp only [hno, if_neg, not_false_iff]
  exact ⟨by rw [JsMap.keys_set]; simp [hmem], JsMap.get_set_self ..⟩

/-- Witness for the amended C6 at capacity 3 and the two-entry cache
`[(0, 1), (1, 2)]`. -/
theorem lru_set_replace_in_place_witness :
    (LRUCache.set 3 0 7 [((0 : Nat), (1 : Nat)), (1, 2)]).map Prod.fst
        = [(0 : Nat), 1] ∧
    JsMap.get 0 (LRUCache.set 3 0 7 [((0 : Nat), (1 : Nat)), (1, 2)])
        = some 7 :=
  lru_set_replace_in_place 3 0 7 [(0, 1), (1, 2)] (by decide) (by decide)

/-! ## C4: expiry semantics of the TTL `Cache` -/

namespace JsMap

theorem nodup_keys_set {K V : Type} [DecidableEq K] (k : K) (v : V)
    (d : List (K × V)) (hd : (d.map Prod.fst).Nodup) :
    ((set k v d).map Prod.fst).Nodup := by
  rw [keys_set]
  by_cases hk : k ∈ d.map Prod.fst
  · simpa [hk] using hd
  · simp only [hk, if_neg, not_false_iff]
    refine List.Nodup.append hd (List.nodup_singleton k) ?_
    simpa [List.disjoint_singleton] using hk

end JsMap

/-- Counterexample to claim C4: an entry `set` at time `s = 0` with
`ttl = 10` is still returned by `get` at `t = 10 = s + ttl`, and is not
removed — although `t < s + ttl` fails there.  The code only expires an
entry when `Date.now() > expiry`, so the entry is visible through
`t = expiresAt` inclusive, not only while `t < expiresAt`. -/
theorem ttl_boundary_counterexample :
    ¬ ((10 : Nat) < 0 + 10) ∧
    (Cache.get 0 10
      (Cache.set 0 5 10 0 ([] : List (Nat × Nat × Nat)))).1 = some 5 ∧
    (Cache.get 0 10
      (Cache.set 0 5 10 0 ([] : List (Nat × Nat × Nat)))).2
      = Cache.set 0 5 10 0 [] := by
  refine ⟨by decide, by decide, by decide⟩

/-- Claim C4 as amended: after `set key value ttl` at time `s`, a `get`
at time `t` returns the value exactly when `t ≤ s + ttl` (the entry is
visible while `current time ≤ expiresAt`, the boundary instant
included); when `t > s + ttl` the entry is treated as absent and removed
from the map.  The spec's concrete instance is unaffected: an entry set
with ttl 10 ms is found at t = 5 ms and gone at t = 15 ms. -/
theorem ttl_visibility {K V : Type} [DecidableEq K] (k : K) (v : V)
    (ttl s t : Nat) (d : List (K × V × Nat))
    (hnd : (d.map Prod.fst).Nodup) :
    (Cache.get k t (Cache.set k v ttl s d)).1
        = (if t ≤ s + ttl then some v else none) ∧
    JsMap.get k ((Cache.get k t (Cache.set k v ttl s d)).2)
        = (if t ≤ s + ttl then some (v, s + ttl) else none) ∧
    (Cache.get 0 5
      (Cache.set 0 99 10 0 ([] : List (Nat × Nat × Nat)))).1 = some 99 ∧
    (Cache.get 0 15
      (Cache.set 0 99 10 0 ([] : List (Nat × Nat × Nat)))).1 = none := by
  have hset : JsMap.get k (Cache.set k v ttl s d) = some (v, s + ttl) :=
    JsMap.get_set_self ..
  refine ⟨?_, ?_, by decide, by decide⟩
  · unfold Cache.get
    rw [hset]
    by_cases ht : s + ttl < t
    · have hnot : ¬ t ≤ s + ttl := by omega
      simp [ht, hnot]
    · have hle : t ≤ s + ttl := by omega
      simp [ht, hle]
  · unfold Cache.get
    rw [hset]
    by_cases ht : s + ttl < t
    · have hnot : ¬ t ≤ s + ttl := by omega
      simp only [ht, if_pos, hnot, if_neg, not_false_iff]
      exact JsMap.get_delete_self k _ (JsMap.nodup_keys_set k _ d hnd)
    · have hle : t ≤ s + ttl := by omega
      simp only [ht, if_neg, not_false_iff, hle, if_pos]
      exact hset

/-- Witness for the amended C4 at `k = 0`, `v = 5`, `ttl = 10`, `s = 0`,
`t = 10` on the empty map. -/
theorem ttl_visibility_witness :
    (Cache.get 0 10
      (Cache.set 0 5 10 0 ([] : List (Nat × Nat × Nat)))).1
        = (if (10 : Nat) ≤ 0 + 10 then some 5 else none) ∧
    JsMap.get 0 ((Cache.get 0 10
      (Cache.set 0 5 10 0 ([] : List (Nat × Nat × Nat)))).2)
        = (if (10 : Nat) ≤ 0 + 10 then some (5, 0 + 10) else none) ∧
    (Cache.get 0 5
      (Cache.set 0 99 10 0 ([] : List (Nat × Nat × Nat)))).1 = some 99 ∧
    (Cache.get 0 15
      (Cache.set 0 99 10 0 ([] : List (Nat × Nat × Nat)))).1 = none :=
  ttl_visibility 0 5 10 0 10 [] (by decide)

/-! ## C2 and C7: the `ResourcePool` has no maximum and a silent release -/

namespace ResourcePool

theorem WF_make (s : Nat) : (make s).WF := by
  refine ⟨?_, ?_, ?_, ?_, ?_⟩ <;> simp [make, List.nodup_range]

theorem acquire_WF_length (st : ResourcePool) (h : st.WF) :
    (acquire st).2.WF ∧
    (acquire st).2.inUse.length = st.inUse.length + 1 := by
  obtain ⟨hpb, hub, hdisj, hpn, hun⟩ := h
  cases hlast : st.pool.getLast? with
  | none =>
    have hpool : st.pool = [] := List.getLast?_eq_none_iff.1 hlast
    have hfresh : st.nextId ∉ st.inUse := fun hmem =>
      lt_irrefl st.nextId (hub st.nextId hmem)
    have hacq : (acquire st).2 =
        { st with
          inUse := st.inUse ++ [st.nextId],
          nextId := st.nextId + 1 } := by
      simp [acquire, hlast, setAdd, hfresh]
    rw [hacq]
    refine ⟨⟨?_, ?_, ?_, ?_, ?_⟩, ?_⟩
    · intro x hx
      exact Nat.lt_succ_of_lt (hpb x hx)
    · intro x hx
      rcases List.mem_append.1 hx with hx | hx
      · exact Nat.lt_succ_of_lt (hub x hx)
      · rw [List.mem_singleton.1 hx]
        exact Nat.lt_succ_self _
    · intro x hx
      rw [hpool] at hx
      exact absurd hx (List.not_mem_nil x)
    · exact hpn
    · exact List.Nodup.append hun (List.nodup_singleton _)
        (by simpa [List.disjoint_singleton] using hfresh)
    · simp
  | some item =>
    have hsplit : st.pool.dropLast ++ [item] = st.pool :=
      List.dropLast_append_getLast? item hlast
    have hitem_mem : item ∈ st.pool := by
      rw [← hsplit]; simp
    have hdrop_sub : ∀ x ∈ st.pool.dropLast, x ∈ st.pool := by
      intro x hx
      rw [← hsplit]; exact List.mem_append_left _ hx
    have hnd' : (st.pool.dropLast ++ [item]).Nodup := by
      rwa [hsplit]
    have hitem_not_drop : item ∉ st.pool.dropLast := by
      rcases List.nodup_append.1 hnd' with ⟨_, _, hdj⟩
      intro hmem
      exact hdj hmem (List.mem_singleton_self item)
    have hitem_not_use : item ∉ st.inUse := hdisj item hitem_mem
    have hacq : (acquire st).2 =
        { st with
          pool := st.pool.dropLast,
          inUse := st.inUse ++ [item] } := by
      simp [acquire, hlast, setAdd, hitem_not_use]
    rw [hacq]
    refine ⟨⟨?_, ?_, ?_, ?_, ?_⟩, ?_⟩
    · intro x hx
      exact hpb x (hdrop_sub x hx)
    · intro x hx
      rcases List.mem_append.1 hx with hx | hx
      · exact hub x hx
      · rw [List.mem_singleton.1 hx]
        exact hpb item hitem_mem
    · intro x hx hx'
      rcases List.mem_append.1 hx' with hx' | hx'
      · exact hdisj x (hdrop_sub x hx) hx'
      · rw [List.mem_singleton.1 hx'] at hx
        exact hitem_not_drop hx
    · exact (List.nodup_append.1 hnd').1
    · exact List.Nodup.append hun (List.nodup_singleton item)
        (by simpa [List.disjoint_singleton] using hitem_not_use)
    · simp

theorem acquireN_WF_length (n : Nat) (st : ResourcePool) (h : st.WF) :
    (acquireN n st).WF ∧
    (acquireN n st).inUse.length = st.inUse.length + n := by
  induction n generalizing st with
  | zero => simpa [acquireN] using h
  | succ m ih =>
    obtain ⟨hwf, hlen⟩ := acquire_WF_length st h
    obtain ⟨hwf', hlen'⟩ := ih (acquire st).2 hwf
    refine ⟨hwf', ?_⟩
    rw [acquireN, hlen', hlen]
    omega

end ResourcePool

/-- Counterexample to claim C2: a pool constructed with
`initialSize = 1` (one pre-built resource, the spec's `poolSize`) hands
out a *second* simultaneously-in-use item on the second `acquire`: the
code constructs a fresh item whenever the idle array is empty, without
any maximum-size check, blocking, or `PoolExhausted` failure. -/
theorem pool_exhaustion_counterexample :
    ((ResourcePool.acquire
      (ResourcePool.acquire (ResourcePool.make 1)).2).2).inUse.length = 2
    ∧ ¬ ((2 : Nat) ≤ 1) := by
  refine ⟨by decide, by decide⟩

/-- Claim C2 as amended: `acquire` never fails, never blocks and
enforces no maximum: from a fresh pool of any `initialSize`, `n`
consecutive acquires leave exactly `n` items simultaneously in use, for
every `n` — `initialSize` only determines how many items are
pre-constructed, not an upper bound on checked-out items. -/
theorem pool_acquire_unbounded (s n : Nat) :
    (ResourcePool.acquireN n (ResourcePool.make s)).inUse.length = n := by
  have h := ResourcePool.acquireN_WF_length n (ResourcePool.make s)
    (ResourcePool.WF_make s)
  simpa [ResourcePool.make] using h.2

/-- Counterexample to claim C7: releasing item `5`, which was never
checked out of a fresh one-item pool, leaves the pool completely
unchanged and signals nothing — `release` has no error outcome at all,
rather than failing loudly with `InvalidRelease`. -/
theorem pool_release_silent_counterexample :
    (5 : Nat) ∉ (ResourcePool.make 1).inUse ∧
    ResourcePool.release 5 (ResourcePool.make 1) = ResourcePool.make 1 := by
  refine ⟨by decide, by decide⟩

/-- Claim C7 as amended: `release` on an item that is not currently
checked out is silently ignored: the guard `inUse.has(item)` makes the
call a no-op, so the pool's idle/in-use bookkeeping is left intact, but
no `InvalidRelease` (or any other) error is raised. -/
theorem pool_release_noop (item : Nat) (st : ResourcePool)
    (h : item ∉ st.inUse) : ResourcePool.release item st = st := by
  simp [ResourcePool.release, h]

/-- Witness for the amended C7: releasing the never-acquired item `5`
on a fresh one-item pool. -/
theorem pool_release_noop_witness :
    ResourcePool.release 5 (ResourcePool.make 1) = ResourcePool.make 1 :=
  pool_release_noop 5 (ResourcePool.make 1) (by decide)

/-! ## C3: retry exhaustion after `maxRetries = 2` -/

/-- Claim C3: with `retries = 2` (the retry budget: initial attempt plus
2 retries) and an operation failing on every invocation with error
`e i` on its i-th invocation, `retryOperation` performs exactly 3
attempts and terminates by throwing the error of the last (third)
attempt, `e 2`. -/
theorem retry_exhausted_three_attempts (E A : Type) (e : Nat → E) :
    retryOperation (fun i => (Except.error (e i) : Except E A)) 2 0
      = (Except.error (e 2), 3) := by
  simp [retryOperation]

/-! ## C9: the backoff delays of `NetworkOptimizer.fetch` -/

namespace NetworkOptimizer

theorem fetchGo_delays (E A : Type) (e : Nat → E) (fuel : Nat) :
    ∀ (i : Nat) (last : Option E) (ds : List Nat),
      (fetchGo (fun j => (Except.error (e j) : Except E A))
        fuel i last ds).2
        = ds ++ (List.range' i fuel).map (fun j => 2 ^ j * 1000) := by
  induction fuel with
  | zero => intro i last ds; simp [fetchGo]
  | succ m ih =>
    intro i last ds
    rw [List.range'_succ]
    simp only [fetchGo, List.map_cons]
    rw [ih (i + 1) (some (e i)) (ds ++ [2 ^ i * 1000])]
    simp

theorem fetchLoop_delays (E A : Type) (e : Nat → E) (r : Nat) :
    (fetchLoop (fun j => (Except.error (e j) : Except E A)) r).2
      = (List.range r).map (fun j => 2 ^ j * 1000) := by
  unfold fetchLoop
  rw [fetchGo_delays]
  simp [List.range_eq_range']

end NetworkOptimizer

/-- Counterexample to claim C9: the claim entails a configured cap on
the backoff delay — some `backoffCap` with every delay at most
`backoffCap + backoffCap / 2`.  The code's delay before the next attempt
is `2^attempt * 1000` ms with no cap (and no jitter), which exceeds any
such bound once enough attempts fail: for every candidate cap, the run
with `retries = cap + 1` against an always-failing operation sleeps a
delay of `2^cap * 1000 > cap + cap / 2` ms. -/
theorem backoff_uncapped_counterexample :
    ¬ ∃ cap : Nat, ∀ r d : Nat,
      d ∈ (NetworkOptimizer.fetchLoop
        (fun i => (Except.error i : Except Nat Unit)) r).2 →
      d ≤ cap + cap / 2 := by
  rintro ⟨cap, h⟩
  have hmem : 2 ^ cap * 1000 ∈
      (NetworkOptimizer.fetchLoop
        (fun i => (Except.error i : Except Nat Unit)) (cap + 1)).2 := by
    rw [NetworkOptimizer.fetchLoop_delays Nat Unit (fun i => i) (cap + 1)]
    exact List.mem_map_of_mem _ (List.mem_range.2 (Nat.lt_succ_self cap))
  have h2 := h (cap + 1) (2 ^ cap * 1000) hmem
  have hlt : cap < 2 ^ cap := Nat.lt_two_pow cap
  omega

/-- Claim C9 as amended: after the i-th failed attempt (0-based) the
loop sleeps exactly `2^i * 1000` ms — pure exponential backoff with a
1000 ms base: no `backoffCap` is applied and no random jitter is added,
so with an always-failing operation and `retries = r` the recorded
delays are precisely `[2^0, 2^1, …, 2^(r-1)] * 1000` ms (the last one
slept even though no further attempt follows). -/
theorem backoff_delay_exact (E A : Type) (e : Nat → E) (r : Nat) :
    (NetworkOptimizer.fetchLoop
      (fun j => (Except.error (e j) : Except E A)) r).2
      = (List.range r).map (fun j => 2 ^ j * 1000) :=
  NetworkOptimizer.fetchLoop_delays E A e r

/-! ## C8 and C10: serial, FIFO dispatch in `AsyncOperationManager` -/

namespace AsyncOperationManager

theorem Inv_init : Inv init := by
  refine ⟨rfl, rfl, rfl⟩

theorem Inv_loopHead (limit : Nat) (st : AsyncOperationManager)
    (hrun : st.running = none) (hact : st.activeCount = 0)
    (hq : st.started ++ st.queue = st.enqueued) :
    Inv (loopHead limit st) := by
  unfold loopHead
  cases hqueue : st.queue with
  | nil =>
    exact ⟨by simp [hact, hrun], by simpa [hqueue] using hq,
      by simp [hrun]⟩
  | cons op rest =>
    simp only []
    by_cases hlim : st.activeCount < limit
    · rw [if_pos hlim]
      refine ⟨by simp [hact, hrun], ?_, by simp⟩
      show st.started ++ [op] ++ rest = st.enqueued
      rw [List.append_assoc]
      simpa [hqueue] using hq
    · rw [if_neg hlim]
      exact ⟨by simp [hact, hrun], by simpa [hqueue] using hq,
        by simp [hrun]⟩

theorem Inv_step (limit : Nat) (st : AsyncOperationManager)
    (e : Event) (h : Inv st) : Inv (step limit st e) := by
  obtain ⟨hact, hq, hproc⟩ := h
  cases e with
  | add op =>
    unfold step
    simp only []
    by_cases hp : st.isProcessing = true
    · rw [if_pos hp]
      refine ⟨hact, ?_, hproc⟩
      show st.started ++ (st.queue ++ [op]) = st.enqueued ++ [op]
      rw [← List.append_assoc, hq]
    · rw [if_neg hp]
      have hrun : st.running = none := by
        cases hr : st.running with
        | none => rfl
        | some x => rw [hproc, hr] at hp; exact absurd rfl hp
      have hact0 : st.activeCount = 0 := by
        rw [hact, hrun]; rfl
      refine Inv_loopHead limit _ hrun hact0 ?_
      show st.started ++ (st.queue ++ [op]) = st.enqueued ++ [op]
      rw [← List.append_assoc, hq]
  | complete =>
    unfold step
    simp only []
    cases hr : st.running with
    | none => exact ⟨by simpa [hr] using hact, hq, by simpa [hr] using hproc⟩
    | some x =>
      simp only []
      refine Inv_loopHead limit _ rfl ?_ hq
      show st.activeCount - 1 = 0
      simp [hact, hr]

theorem Inv_run (limit : Nat) (es : List Event) : Inv (run limit es) := by
  unfold run
  have : ∀ st : AsyncOperationManager, Inv st →
      Inv (es.foldl (step limit) st) := by
    induction es with
    | nil => intro st h; simpa using h
    | cons e tl ih =>
      intro st h
      exact ih _ (Inv_step limit st e h)
  exact this init Inv_init

end AsyncOperationManager

/-- Claim C10 (implicit): the dispatch loop of
`AsyncOperationManager.processQueue` awaits each operation before
shifting the next, so whatever the configured `concurrentLimit` and
whatever the sequence of `add` and completion events, `activeCount`
never exceeds 1 at any point — no two operations are ever in flight
simultaneously. -/
theorem manager_serial_execution (limit : Nat)
    (es : List AsyncOperationManager.Event) (n : Nat) :
    (AsyncOperationManager.run limit (es.take n)).activeCount ≤ 1 := by
  have h := (AsyncOperationManager.Inv_run limit (es.take n)).1
  rw [h]
  cases (AsyncOperationManager.run limit (es.take n)).running <;> simp

/-- Claim C8: at every point of every event sequence, at most
`concurrentLimit` operations are executing (`activeCount ≤ limit`), and
operations are started strictly in the order they were enqueued: the
log of started operations followed by the still-queued operations is
exactly the enqueue log, so no operation is ever served out of turn. -/
theorem manager_fifo_bounded (limit : Nat) (hl : 1 ≤ limit)
    (es : List AsyncOperationManager.Event) (n : Nat) :
    (AsyncOperationManager.run limit (es.take n)).activeCount ≤ limit ∧
    (AsyncOperationManager.run limit (es.take n)).started ++
        (AsyncOperationManager.run limit (es.take n)).queue
      = (AsyncOperationManager.run limit (es.take n)).enqueued := by
  obtain ⟨hact, hq, -⟩ := AsyncOperationManager.Inv_run limit (es.take n)
  refine ⟨?_, hq⟩
  rw [hact]
  cases (AsyncOperationManager.run limit (es.take n)).running <;>
    simp [hl]

/-- Witness for C8 at `limit = 3` with two adds and one completion. -/
theorem manager_fifo_bounded_witness :
    (AsyncOperationManager.run 3
      (List.take 3 [AsyncOperationManager.Event.add 0,
        AsyncOperationManager.Event.add 1,
        AsyncOperationManager.Event.complete])).activeCount ≤ 3 ∧
    (AsyncOperationManager.run 3
      (List.take 3 [AsyncOperationManager.Event.add 0,
        AsyncOperationManager.Event.add 1,
        AsyncOperationManager.Event.complete])).started ++
        (AsyncOperationManager.run 3
          (List.take 3 [AsyncOperationManager.Event.add 0,
            AsyncOperationManager.Event.add 1,
            AsyncOperationManager.Event.complete])).queue
      = (AsyncOperationManager.run 3
          (List.take 3 [AsyncOperationManager.Event.add 0,
            AsyncOperationManager.Event.add 1,
            AsyncOperationManager.Event.complete])).enqueued :=
  manager_fifo_bounded 3 (by decide) _ 3
